import Mathlib

/-!
Model of `pkg/sql/opt/props/weak_keys.go` from CockroachDB: the `WeakKeys`
type (a slice of column sets maintained as an antichain under the subset
relation) and its four operations `ContainsSubsetOf`, `Add`, `Copy` and
`Combine`.

The development has two levels.

* A pure element-level model on `List ColSet`, faithful to the observable
  element sequence of the Go slice.  In particular `Add` models the partial
  in-place compaction that the Go loop performs before an early return:
  survivors scanned so far have already been copied toward the front of the
  storage, and the early `return` does not revert them, so the observable
  sequence at that point is the compacted survivors followed by the untouched
  original tail.

* A heap model of Go slices (`Slice` headers into a `Heap` of numbered
  arrays), capturing allocation, in-place writes and `append`'s
  grow-or-reallocate behaviour, for the aliasing and ownership properties of
  `Copy` and `Combine`.
-/

namespace WeakKeysModel

/-- Model of `opt.ColSet`: a finite set of column ids with decidable subset. -/
abbrev ColSet := Finset ℕ

/-- Go `WeakKeys.ContainsSubsetOf`: true if some stored key is a subset of the
given key.  The Go loop short-circuits on the first match, as `List.any` does. -/
def ContainsSubsetOf (wk : List ColSet) (weakKey : ColSet) : Bool :=
  wk.any fun existing => decide (existing ⊆ weakKey)

/-- The loop of Go `WeakKeys.Add`, on the element view of the slice.
`orig` is the full element sequence at entry, `pending` the elements not yet
scanned, and `survivors` the retained elements already compacted to the front
(`insert = survivors.length`).  On the early return triggered by an existing
key that is a subset of `new`, the observable sequence is the compacted prefix
written so far followed by the original elements from position `insert` on,
because the Go code returns without reverting the in-place writes.  After a
complete scan, the code appends `new` after the compacted prefix and drops the
tail. -/
def addGo (new : ColSet) (orig : List ColSet) : List ColSet → List ColSet → List ColSet
  | [], survivors => survivors ++ [new]
  | existing :: rest, survivors =>
    if existing ⊆ new then survivors ++ orig.drop survivors.length
    else if new ⊆ existing then addGo new orig rest survivors
    else addGo new orig rest (survivors ++ [existing])

/-- Go `WeakKeys.Add` on the element view of the slice. -/
def Add (wk : List ColSet) (new : ColSet) : List ColSet :=
  addGo new wk wk []

/-- Go `WeakKeys.Copy` on the element view: the copy holds the same elements
in the same order (the fresh-storage aspect lives in the heap model). -/
def Copy (wk : List ColSet) : List ColSet :=
  wk

/-- Go `WeakKeys.Combine` on the element view: empty-side short-circuits,
otherwise a copy of `wk` into which each element of `other` is `Add`ed in
order. -/
def Combine (wk other : List ColSet) : List ColSet :=
  if wk.length = 0 then other
  else if other.length = 0 then wk
  else other.foldl Add wk

/-- The antichain invariant: no element of the list is a subset of another
element at a different position. -/
def Antichain (l : List ColSet) : Prop :=
  l.Pairwise fun a b => ¬a ⊆ b ∧ ¬b ⊆ a

instance decidableAntichain (l : List ColSet) : Decidable (Antichain l) := by
  unfold Antichain
  infer_instance

/-- Weak-key lists reachable from the empty list through the public API. -/
inductive Reachable : List ColSet → Prop
  | empty : Reachable []
  | add {wk : List ColSet} (k : ColSet) : Reachable wk → Reachable (Add wk k)
  | combine {wk other : List ColSet} :
      Reachable wk → Reachable other → Reachable (Combine wk other)
  | copy {wk : List ColSet} : Reachable wk → Reachable (Copy wk)

/-!
Heap model of Go slices, for the aliasing and ownership properties.  A slice
header names a numbered array in a heap together with a length and a
capacity; slicing in this code only ever takes prefixes, so no offset is
needed.  `append` writes in place while capacity remains and otherwise copies
into a freshly allocated array, as the Go runtime does.
-/

/-- A Go slice header: array id, length, capacity. -/
structure Slice where
  arr : Nat
  len : Nat
  cap : Nat
deriving DecidableEq

/-- A heap of numbered arrays; ids at or above `next` are unallocated. -/
structure Heap where
  mem : Nat → List ColSet
  next : Nat

/-- The element sequence a slice denotes. -/
def readSlice (h : Heap) (s : Slice) : List ColSet :=
  (h.mem s.arr).take s.len

/-- Overwrite one cell of one array. -/
def hWrite (h : Heap) (a i : Nat) (v : ColSet) : Heap :=
  ⟨fun j => if j = a then (h.mem a).set i v else h.mem j, h.next⟩

/-- Allocate a fresh array holding `c`, returning the heap and the new id. -/
def hAlloc (h : Heap) (c : List ColSet) : Heap × Nat :=
  (⟨fun j => if j = h.next then c else h.mem j, h.next + 1⟩, h.next)

/-- Go `append(s, v)` for a one-element append: write in place when capacity
remains, otherwise copy into a freshly allocated larger array. -/
def appendS (h : Heap) (s : Slice) (v : ColSet) : Heap × Slice :=
  if s.len < s.cap then
    (hWrite h s.arr s.len v, ⟨s.arr, s.len + 1, s.cap⟩)
  else
    let newCap := max (2 * s.cap) (s.len + 1)
    let c := readSlice h s ++ v :: List.replicate (newCap - (s.len + 1)) ∅
    let p := hAlloc h c
    (p.1, ⟨p.2, s.len + 1, newCap⟩)

/-- The loop of Go `WeakKeys.Add` over the heap, iterating positions `i` of
array `arrId` with `fuel` positions left to scan; `insert` is the compaction
cursor.  Returns the heap, the final `insert`, and whether the scan completed
(`false` when the early redundancy return fired). -/
def addHLoop (new : ColSet) (arrId : Nat) : Nat → Nat → Nat → Heap → Heap × Nat × Bool
  | 0, _, insert, h => (h, insert, true)
  | fuel + 1, i, insert, h =>
    let existing := (h.mem arrId).getD i ∅
    if existing ⊆ new then (h, insert, false)
    else if new ⊆ existing then addHLoop new arrId fuel (i + 1) insert h
    else if insert = i then addHLoop new arrId fuel (i + 1) (insert + 1) h
    else addHLoop new arrId fuel (i + 1) (insert + 1) (hWrite h arrId insert existing)

/-- Go `WeakKeys.Add` over the heap: scan the `s.len` stored elements, then,
when the scan completed, append the new key after the compacted prefix
(`append((*wk)[:insert], new)`); on the early return the slice header is left
as it was. -/
def addH (h : Heap) (s : Slice) (new : ColSet) : Heap × Slice :=
  let r := addHLoop new s.arr s.len 0 0 h
  if r.2.2 then appendS r.1 ⟨s.arr, r.2.1, s.cap⟩ new else (r.1, s)

/-- A sequence of `Add` calls on one slice over the heap. -/
def addList (h : Heap) (s : Slice) : List ColSet → Heap × Slice
  | [] => (h, s)
  | k :: ks => addList (addH h s k).1 (addH h s k).2 ks

/-- Go `WeakKeys.Copy` over the heap: `make` a fresh array of the source's
length and copy the elements across. -/
def copyH (h : Heap) (s : Slice) : Heap × Slice :=
  let p := hAlloc h (readSlice h s)
  (p.1, ⟨p.2, s.len, s.len⟩)

/-- The loop of Go `WeakKeys.Combine` over the heap: `Add` each element of
`other` (read at its current heap position `j`) into the result slice. -/
def combineHLoop (otherArr : Nat) : Nat → Nat → Heap → Slice → Heap × Slice
  | 0, _, h, res => (h, res)
  | fuel + 1, j, h, res =>
    let k := (h.mem otherArr).getD j ∅
    combineHLoop otherArr fuel (j + 1) (addH h res k).1 (addH h res k).2

/-- Go `WeakKeys.Combine` over the heap: empty-side short-circuits return an
input slice unchanged; otherwise `make` a fresh array of capacity
`len(wk) + len(other)` holding a copy of `wk`, and `Add` each element of
`other` into it. -/
def combineH (h : Heap) (wk other : Slice) : Heap × Slice :=
  if wk.len = 0 then (h, other)
  else if other.len = 0 then (h, wk)
  else
    let p := hAlloc h (readSlice h wk ++ List.replicate other.len ∅)
    combineHLoop other.arr other.len 0 p.1 ⟨p.2, wk.len, wk.len + other.len⟩

/-- Concrete heap for the `Copy` independence witness: one allocated array
holding the single weak key `{1}`. -/
def heap9 : Heap := ⟨fun j => if j = 0 then [{1}] else [], 1⟩

/-- Slice viewing the one allocated array of `heap9`. -/
def src9 : Slice := ⟨0, 1, 1⟩

/-- Concrete heap for the `Combine` freshness witness: two allocated arrays
holding the weak keys `{1}` and `{2}`. -/
def heap10 : Heap :=
  ⟨fun j => if j = 0 then [{1}] else if j = 1 then [{2}] else [], 2⟩

/-- Slice viewing the first allocated array of `heap10`. -/
def wk10 : Slice := ⟨0, 1, 1⟩

/-- Slice viewing the second allocated array of `heap10`. -/
def other10 : Slice := ⟨1, 1, 1⟩

/-- When no pending element is a subset of `new`, the scan completes: the
result is the survivors, then the pending elements of which `new` is not a
subset, then `new`. -/
theorem addGo_of_no_subset (new : ColSet) (orig : List ColSet) :
    ∀ pending survivors : List ColSet, (∀ e ∈ pending, ¬e ⊆ new) →
      addGo new orig pending survivors =
        survivors ++ pending.filter (fun e => !decide (new ⊆ e)) ++ [new] := by
  intro pending
  induction pending with
  | nil => intro survivors _; simp [addGo]
  | cons existing rest ih =>
    intro survivors hno
    have hns : ¬existing ⊆ new := hno existing (List.mem_cons_self _ _)
    rw [addGo]
    rw [if_neg hns]
    by_cases hsub : new ⊆ existing
    · rw [if_pos hsub]
      rw [ih survivors fun e he => hno e (List.mem_cons_of_mem _ he)]
      simp [List.filter_cons, hsub]
    · rw [if_neg hsub]
      rw [ih (survivors ++ [existing]) fun e he => hno e (List.mem_cons_of_mem _ he)]
      simp [List.filter_cons, hsub]

/-- When the pending part is an antichain and contains a subset of `new`, the
scan returns early before any compaction has displaced an element, so the
slice is unchanged.  The hypothesis `orig = survivors ++ pending` records that
no element has been dropped yet. -/
theorem addGo_of_subset (new : ColSet) (orig : List ColSet) :
    ∀ pending survivors : List ColSet, orig = survivors ++ pending →
      (pending.Pairwise fun a b => ¬a ⊆ b ∧ ¬b ⊆ a) →
      (∃ e ∈ pending, e ⊆ new) →
      addGo new orig pending survivors = orig := by
  intro pending
  induction pending with
  | nil => intro survivors _ _ hex; simp at hex
  | cons existing rest ih =>
    intro survivors horig hpw hex
    rw [addGo]
    by_cases hred : existing ⊆ new
    · rw [if_pos hred, horig]
      rw [List.drop_left]
    · rw [if_neg hred]
      obtain ⟨e, he, hesub⟩ := hex
      rcases List.mem_cons.mp he with he | he
      · exact absurd hesub (he ▸ hred)
      · by_cases hsub : new ⊆ existing
        · exact absurd (hesub.trans hsub) ((List.pairwise_cons.mp hpw).1 e he).2
        · rw [if_neg hsub]
          refine ih (survivors ++ [existing]) ?_ (List.pairwise_cons.mp hpw).2 ⟨e, he, hesub⟩
          simp [horig]

/-- Evaluation of `Add` when the new key is redundant: under the antichain
invariant the early return happens before any in-place write, so the list is
unchanged. -/
theorem Add_of_contains {wk : List ColSet} {new : ColSet} (hac : Antichain wk)
    (hc : ContainsSubsetOf wk new = true) : Add wk new = wk := by
  have hex : ∃ e ∈ wk, e ⊆ new := by
    simpa [ContainsSubsetOf] using hc
  exact addGo_of_subset new wk wk [] rfl hac hex

/-- Evaluation of `Add` when the new key is not redundant: the elements of
which `new` is a subset are dropped, the rest keep their scan order, and `new`
is appended. -/
theorem Add_of_not_contains {wk : List ColSet} {new : ColSet}
    (hc : ContainsSubsetOf wk new = false) :
    Add wk new = wk.filter (fun e => !decide (new ⊆ e)) ++ [new] := by
  have hno : ∀ e ∈ wk, ¬e ⊆ new := by
    simpa [ContainsSubsetOf] using hc
  simpa using addGo_of_no_subset new wk wk [] hno

/-- `Add` preserves the antichain invariant. -/
theorem antichain_add {wk : List ColSet} (hac : Antichain wk) (new : ColSet) :
    Antichain (Add wk new) := by
  cases hc : ContainsSubsetOf wk new with
  | true => rw [Add_of_contains hac hc]; exact hac
  | false =>
    rw [Add_of_not_contains hc]
    have hno : ∀ e ∈ wk, ¬e ⊆ new := by
      simpa [ContainsSubsetOf] using hc
    refine List.pairwise_append.mpr
      ⟨List.Pairwise.filter _ hac, List.pairwise_singleton _ _, ?_⟩
    intro a ha b hb
    have hmem := List.mem_filter.mp ha
    have hb' : b = new := by simpa using hb
    subst hb'
    exact ⟨hno a hmem.1, by simpa using hmem.2⟩

/-- Folding `Add` over a list of keys preserves the antichain invariant. -/
theorem antichain_foldl_add {wk : List ColSet} (hac : Antichain wk)
    (ks : List ColSet) : Antichain (ks.foldl Add wk) := by
  induction ks generalizing wk with
  | nil => exact hac
  | cons k rest ih => exact ih (antichain_add hac k)

/-- `Combine` preserves the antichain invariant. -/
theorem Antichain.combine {wk other : List ColSet} (h₁ : Antichain wk)
    (h₂ : Antichain other) : Antichain (Combine wk other) := by
  unfold Combine
  split
  · exact h₂
  · split
    · exact h₁
    · exact antichain_foldl_add h₁ other

/-- Every weak-key list reachable through the public API is an antichain. -/
theorem Reachable.antichain {wk : List ColSet} (h : Reachable wk) :
    Antichain wk := by
  induction h with
  | empty => exact List.Pairwise.nil
  | add k _ ih => exact antichain_add ih k
  | combine _ _ ih₁ ih₂ => exact ih₁.combine ih₂
  | copy _ ih => exact ih

/-- `res` represents the guarantee set `U`: every element of `res` comes from
`U`, and every member of `U` has an equal-or-stronger key in `res`. -/
def Represents (res U : List ColSet) : Prop :=
  (∀ x ∈ res, x ∈ U) ∧ ∀ u ∈ U, ∃ x ∈ res, x ⊆ u

/-- `Add` extends a represented guarantee set by the added key. -/
theorem represents_add {res U : List ColSet} (hac : Antichain res)
    (hr : Represents res U) (k : ColSet) :
    Represents (Add res k) (U ++ [k]) := by
  cases hc : ContainsSubsetOf res k with
  | true =>
    rw [Add_of_contains hac hc]
    have hex : ∃ e ∈ res, e ⊆ k := by
      simpa [ContainsSubsetOf] using hc
    refine ⟨fun x hx => List.mem_append_left _ (hr.1 x hx), ?_⟩
    intro u hu
    rcases List.mem_append.mp hu with hu | hu
    · exact hr.2 u hu
    · have hu' : u = k := by simpa using hu
      subst hu'
      exact hex
  | false =>
    rw [Add_of_not_contains hc]
    constructor
    · intro x hx
      rcases List.mem_append.mp hx with hx | hx
      · exact List.mem_append_left _ (hr.1 x (List.mem_filter.mp hx).1)
      · exact List.mem_append_right _ hx
    · intro u hu
      rcases List.mem_append.mp hu with hu | hu
      · obtain ⟨x, hx, hxu⟩ := hr.2 u hu
        by_cases hkeep : k ⊆ x
        · exact ⟨k, List.mem_append_right _ (List.mem_singleton_self _),
            hkeep.trans hxu⟩
        · exact ⟨x, List.mem_append_left _
            (List.mem_filter.mpr ⟨hx, by simpa using hkeep⟩), hxu⟩
      · have hu' : u = k := by simpa using hu
        subst hu'
        exact ⟨u, List.mem_append_right _ (List.mem_singleton_self _),
          Finset.Subset.refl u⟩

/-- Folding `Add` over `ks` extends a represented guarantee set by `ks`. -/
theorem represents_foldl_add {res U : List ColSet} (hac : Antichain res)
    (hr : Represents res U) (ks : List ColSet) :
    Represents (ks.foldl Add res) (U ++ ks) := by
  induction ks generalizing res U with
  | nil => simpa using hr
  | cons k rest ih =>
    have h := ih (antichain_add hac k) (represents_add hac hr k)
    simpa using h

/-- An antichain representing `U` consists exactly of the minimal members of
`U` under subset. -/
theorem Represents.mem_iff_minimal {res U : List ColSet} (hac : Antichain res)
    (hr : Represents res U) (x : ColSet) :
    x ∈ res ↔ x ∈ U ∧ ∀ y ∈ U, y ⊆ x → y = x := by
  have hpw : ∀ a ∈ res, ∀ b ∈ res, a ≠ b → ¬a ⊆ b ∧ ¬b ⊆ a := by
    intro a ha b hb hne
    exact List.Pairwise.forall (fun _ _ hab => ⟨hab.2, hab.1⟩) hac ha hb hne
  constructor
  · intro hx
    refine ⟨hr.1 x hx, ?_⟩
    intro y hy hyx
    obtain ⟨z, hz, hzy⟩ := hr.2 y hy
    by_cases hzx : z = x
    · subst hzx
      exact Finset.Subset.antisymm hyx hzy
    · exact absurd (hzy.trans hyx) ((hpw z hz x hx hzx).1)
  · intro ⟨hxU, hmin⟩
    obtain ⟨z, hz, hzx⟩ := hr.2 x hxU
    have : z = x := hmin z (hr.1 z hz) hzx
    exact this ▸ hz

example : Add [{1}] {1, 2} = [{1}] := by decide
example : Add [{1, 2}] {1} = [{1}] := by decide
example : Add [{1}] {2} = [{1}, {2}] := by decide
example : Add [{1}, {2}] ∅ = [∅] := by decide
example : Combine [{1}] [{2}] = [{1}, {2}] := by decide
example : Combine [{1, 2}] [{1}] = [{1}] := by decide
example : ContainsSubsetOf [{1}] {1, 2} = true := by decide
example : ContainsSubsetOf [{1, 2}] {1} = false := by decide

/-- C1: `Add` preserves the antichain invariant (no element of the list is a
subset of an element at another position), and consequently every `WeakKeys`
value reachable from the empty list through `Add`, `Combine` and `Copy`
satisfies the antichain invariant. -/
theorem add_preserves_antichain (wk : List ColSet) (k : ColSet)
    (hac : Antichain wk) :
    Antichain (Add wk k) ∧ ∀ l : List ColSet, Reachable l → Antichain l :=
  ⟨antichain_add hac k, fun _ h => h.antichain⟩

theorem add_preserves_antichain_witness :
    Antichain [({1} : ColSet), {2, 3}] ∧
      (Antichain (Add [({1} : ColSet), {2, 3}] {2}) ∧
        ∀ l : List ColSet, Reachable l → Antichain l) :=
  ⟨by decide, add_preserves_antichain [{1}, {2, 3}] {2} (by decide)⟩

/-- C2: under the antichain invariant, if some existing element is a subset of
the new key, `Add` abandons the operation and leaves the list observably
unchanged: the very same element sequence, nothing overwritten or dropped. -/
theorem add_noop_of_redundant (wk : List ColSet) (k : ColSet)
    (hac : Antichain wk) (hred : ∃ e ∈ wk, e ⊆ k) : Add wk k = wk :=
  Add_of_contains hac (by simpa [ContainsSubsetOf] using hred)

theorem add_noop_of_redundant_witness :
    Antichain [({1} : ColSet), {2, 3}] ∧
      (∃ e ∈ [({1} : ColSet), {2, 3}], e ⊆ {1, 4}) ∧
      Add [({1} : ColSet), {2, 3}] {1, 4} = [{1}, {2, 3}] :=
  ⟨by decide, by decide, add_noop_of_redundant _ _ (by decide) (by decide)⟩

/-- C3: when no existing element is a subset of the new key, `Add` keeps
exactly the elements of which the new key is not a subset, in scan order
compacted to the front, and appends the new key at the end; every prior
superset of the new key is dropped. -/
theorem add_result_of_not_redundant (wk : List ColSet) (k : ColSet)
    (_hac : Antichain wk) (hnored : ∀ e ∈ wk, ¬e ⊆ k) :
    Add wk k = wk.filter (fun e => !decide (k ⊆ e)) ++ [k] :=
  Add_of_not_contains (by simpa [ContainsSubsetOf] using hnored)

theorem add_result_of_not_redundant_witness :
    Antichain [({1, 2} : ColSet), {3}] ∧
      (∀ e ∈ [({1, 2} : ColSet), {3}], ¬e ⊆ {1}) ∧
      Add [({1, 2} : ColSet), {3}] {1} =
        List.filter (fun e => !decide (({1} : ColSet) ⊆ e)) [{1, 2}, {3}] ++
          [{1}] :=
  ⟨by decide, by decide, add_result_of_not_redundant _ _ (by decide) (by decide)⟩

/-- C4: `ContainsSubsetOf` returns true exactly when some stored element is a
subset of the candidate (equality included); it is a pure query on the element
sequence and mutates nothing. -/
theorem containsSubsetOf_iff_exists (wk : List ColSet) (candidate : ColSet) :
    ContainsSubsetOf wk candidate = true ↔ ∃ e ∈ wk, e ⊆ candidate := by
  simp [ContainsSubsetOf]

/-- C5: under the antichain invariant, `ContainsSubsetOf` answers true exactly
when `Add` of the same key would leave the list unchanged. -/
theorem containsSubsetOf_iff_add_noop (wk : List ColSet) (k : ColSet)
    (hac : Antichain wk) :
    ContainsSubsetOf wk k = true ↔ Add wk k = wk := by
  constructor
  · exact fun hc => Add_of_contains hac hc
  · intro h
    by_contra hc
    have hc' : ContainsSubsetOf wk k = false := by
      simpa using hc
    rw [Add_of_not_contains hc'] at h
    have hk : k ∈ wk := h ▸ List.mem_append_right _ (List.mem_singleton_self k)
    have : ContainsSubsetOf wk k = true := by
      simp only [ContainsSubsetOf, List.any_eq_true, decide_eq_true_eq]
      exact ⟨k, hk, Finset.Subset.refl k⟩
    simp [this] at hc'

theorem containsSubsetOf_iff_add_noop_witness :
    Antichain [({1} : ColSet)] ∧
      (ContainsSubsetOf [({1} : ColSet)] {1, 2} = true ↔
        Add [({1} : ColSet)] {1, 2} = [{1}]) :=
  ⟨by decide, containsSubsetOf_iff_add_noop [{1}] {1, 2} (by decide)⟩

/-- C6: on any non-empty antichain, adding the empty column set yields exactly
the singleton list holding the empty set: every non-empty element is dropped
and the empty key remains. -/
theorem add_empty_key (wk : List ColSet) (hne : wk ≠ [])
    (hac : Antichain wk) : Add wk ∅ = [∅] := by
  cases hc : ContainsSubsetOf wk ∅ with
  | false =>
    rw [Add_of_not_contains hc]
    simp
  | true =>
    rw [Add_of_contains hac hc]
    have hex : ∃ e ∈ wk, e ⊆ ∅ := by
      simpa [ContainsSubsetOf] using hc
    obtain ⟨e, he, hsub⟩ := hex
    have he0 : e = ∅ := Finset.subset_empty.mp hsub
    subst he0
    cases wk with
    | nil => exact absurd rfl hne
    | cons a rest =>
      have hpw := List.pairwise_cons.mp hac
      rcases List.mem_cons.mp he with h0 | h0
      · subst h0
        cases rest with
        | nil => rfl
        | cons b rest' =>
          exact absurd (Finset.empty_subset b)
            (hpw.1 b (List.mem_cons_self b rest')).1
      · exact absurd (Finset.empty_subset a) (hpw.1 ∅ h0).2

theorem add_empty_key_witness :
    [({1} : ColSet), {2}] ≠ [] ∧ Antichain [({1} : ColSet), {2}] ∧
      Add [({1} : ColSet), {2}] ∅ = [∅] :=
  ⟨by decide, by decide, add_empty_key _ (by decide) (by decide)⟩

/-- C7: for antichain inputs, `Combine` produces exactly the minimal elements
(under subset) of the union of the two element sets; in particular combining
`[{1}]` with `[{2}]` gives `[{1}, {2}]` and combining `[{1, 2}]` with `[{1}]`
gives `[{1}]`. -/
theorem combine_minimal (wk other : List ColSet) (h₁ : Antichain wk)
    (h₂ : Antichain other) :
    (∀ x : ColSet, x ∈ Combine wk other ↔
        (x ∈ wk ∨ x ∈ other) ∧
          ∀ y : ColSet, y ∈ wk ∨ y ∈ other → y ⊆ x → y = x) ∧
      Combine [{1}] [{2}] = [{1}, {2}] ∧ Combine [{1, 2}] [{1}] = [{1}] := by
  refine ⟨?_, by decide, by decide⟩
  intro x
  have hrepr : Represents (Combine wk other) (wk ++ other) := by
    unfold Combine
    split
    · next h =>
      have hwk : wk = [] := List.length_eq_zero.mp h
      subst hwk
      exact ⟨fun x hx => by simpa using hx, fun u hu =>
        ⟨u, by simpa using hu, Finset.Subset.refl u⟩⟩
    · split
      · next _ h =>
        have hot : other = [] := List.length_eq_zero.mp h
        subst hot
        exact ⟨fun x hx => by simpa using hx, fun u hu =>
          ⟨u, by simpa using hu, Finset.Subset.refl u⟩⟩
      · exact represents_foldl_add h₁
          ⟨fun x hx => hx, fun u hu => ⟨u, hu, Finset.Subset.refl u⟩⟩ other
  have hac : Antichain (Combine wk other) := h₁.combine h₂
  have hmin := hrepr.mem_iff_minimal hac x
  simpa [List.mem_append] using hmin

theorem combine_minimal_witness :
    Antichain [({1, 2} : ColSet)] ∧ Antichain [({1} : ColSet)] ∧
      (({1} : ColSet) ∈ Combine [({1, 2} : ColSet)] [{1}] ↔
        (({1} : ColSet) ∈ [({1, 2} : ColSet)] ∨ ({1} : ColSet) ∈ [({1} : ColSet)]) ∧
          ∀ y : ColSet, y ∈ [({1, 2} : ColSet)] ∨ y ∈ [({1} : ColSet)] →
            y ⊆ {1} → y = {1}) :=
  ⟨by decide, by decide,
    (combine_minimal [{1, 2}] [{1}] (by decide) (by decide)).1 {1}⟩

theorem hWrite_mem_ne {h : Heap} {a b i : Nat} {v : ColSet} (hne : a ≠ b) :
    (hWrite h b i v).mem a = h.mem a := by
  simp [hWrite, hne]

theorem hWrite_next (h : Heap) (b i : Nat) (v : ColSet) :
    (hWrite h b i v).next = h.next := rfl

theorem hAlloc_mem_lt {h : Heap} {a : Nat} {c : List ColSet} (hlt : a < h.next) :
    (hAlloc h c).1.mem a = h.mem a := by
  simp [hAlloc, Nat.ne_of_lt hlt]

theorem appendS_mem_ne (h : Heap) (s : Slice) (v : ColSet) (a : Nat)
    (hne : a ≠ s.arr) (hlt : a < h.next) :
    (appendS h s v).1.mem a = h.mem a := by
  unfold appendS
  split
  · exact hWrite_mem_ne hne
  · exact hAlloc_mem_lt hlt

theorem appendS_next_le (h : Heap) (s : Slice) (v : ColSet) :
    h.next ≤ (appendS h s v).1.next := by
  unfold appendS
  split
  · exact Nat.le_refl _
  · exact Nat.le_succ _

theorem appendS_arr_cases (h : Heap) (s : Slice) (v : ColSet) :
    (appendS h s v).2.arr = s.arr ∨ (appendS h s v).2.arr = h.next := by
  unfold appendS
  split
  · exact Or.inl rfl
  · exact Or.inr rfl

theorem addHLoop_next (new : ColSet) (arrId : Nat) :
    ∀ (fuel i insert : Nat) (h : Heap),
      (addHLoop new arrId fuel i insert h).1.next = h.next := by
  intro fuel
  induction fuel with
  | zero => intro i insert h; rfl
  | succ fuel ih =>
    intro i insert h
    rw [addHLoop]
    split
    · rfl
    · split
      · exact ih _ _ _
      · split
        · exact ih _ _ _
        · rw [ih _ _ _]; rfl

theorem addHLoop_mem_ne {a arrId : Nat} (hne : a ≠ arrId) (new : ColSet) :
    ∀ (fuel i insert : Nat) (h : Heap),
      (addHLoop new arrId fuel i insert h).1.mem a = h.mem a := by
  intro fuel
  induction fuel with
  | zero => intro i insert h; rfl
  | succ fuel ih =>
    intro i insert h
    rw [addHLoop]
    split
    · rfl
    · split
      · exact ih _ _ _
      · split
        · exact ih _ _ _
        · rw [ih _ _ _, hWrite_mem_ne hne]

theorem addH_mem_ne {h : Heap} {s : Slice} {k : ColSet} {a : Nat}
    (hne : a ≠ s.arr) (hlt : a < h.next) :
    (addH h s k).1.mem a = h.mem a := by
  simp only [addH]
  split
  · rw [appendS_mem_ne (addHLoop k s.arr s.len 0 0 h).1
      ⟨s.arr, (addHLoop k s.arr s.len 0 0 h).2.1, s.cap⟩ k a hne
      (by rw [addHLoop_next]; exact hlt)]
    exact addHLoop_mem_ne hne k s.len 0 0 h
  · exact addHLoop_mem_ne hne k s.len 0 0 h

theorem addH_next_le (h : Heap) (s : Slice) (k : ColSet) :
    h.next ≤ (addH h s k).1.next := by
  simp only [addH]
  split
  · calc h.next = (addHLoop k s.arr s.len 0 0 h).1.next :=
          (addHLoop_next k s.arr s.len 0 0 h).symm
      _ ≤ _ := appendS_next_le _ _ _
  · rw [addHLoop_next]

theorem addH_arr_cases (h : Heap) (s : Slice) (k : ColSet) :
    (addH h s k).2.arr = s.arr ∨ (addH h s k).2.arr = h.next := by
  simp only [addH]
  split
  · rcases appendS_arr_cases (addHLoop k s.arr s.len 0 0 h).1
        ⟨s.arr, (addHLoop k s.arr s.len 0 0 h).2.1, s.cap⟩ k with hc | hc
    · exact Or.inl hc
    · rw [addHLoop_next] at hc
      exact Or.inr hc
  · exact Or.inl rfl

theorem addList_mem_ne {a : Nat} :
    ∀ (ks : List ColSet) (h : Heap) (s : Slice), a ≠ s.arr → a < h.next →
      (addList h s ks).1.mem a = h.mem a := by
  intro ks
  induction ks with
  | nil => intro h s _ _; rfl
  | cons k rest ih =>
    intro h s hne hlt
    rw [addList]
    have harr : a ≠ (addH h s k).2.arr := by
      rcases addH_arr_cases h s k with hc | hc
      · rw [hc]; exact hne
      · rw [hc]; exact Nat.ne_of_lt hlt
    have hlt' : a < (addH h s k).1.next :=
      Nat.lt_of_lt_of_le hlt (addH_next_le h s k)
    rw [ih _ _ harr hlt', addH_mem_ne hne hlt]

theorem combineHLoop_mem_ne {a otherArr : Nat} :
    ∀ (fuel j : Nat) (h : Heap) (res : Slice), a ≠ res.arr → a < h.next →
      (combineHLoop otherArr fuel j h res).1.mem a = h.mem a := by
  intro fuel
  induction fuel with
  | zero => intro j h res _ _; rfl
  | succ fuel ih =>
    intro j h res hne hlt
    rw [combineHLoop]
    have harr : a ≠ (addH h res ((h.mem otherArr).getD j ∅)).2.arr := by
      rcases addH_arr_cases h res ((h.mem otherArr).getD j ∅) with hc | hc
      · rw [hc]; exact hne
      · rw [hc]; exact Nat.ne_of_lt hlt
    have hlt' : a < (addH h res ((h.mem otherArr).getD j ∅)).1.next :=
      Nat.lt_of_lt_of_le hlt (addH_next_le _ _ _)
    rw [ih _ _ _ harr hlt', addH_mem_ne hne hlt]

theorem combineHLoop_next_le (otherArr : Nat) :
    ∀ (fuel j : Nat) (h : Heap) (res : Slice),
      h.next ≤ (combineHLoop otherArr fuel j h res).1.next := by
  intro fuel
  induction fuel with
  | zero => intro j h res; exact Nat.le_refl _
  | succ fuel ih =>
    intro j h res
    rw [combineHLoop]
    exact Nat.le_trans (addH_next_le _ _ _) (ih _ _ _)

theorem combineHLoop_arr_ge {m otherArr : Nat} :
    ∀ (fuel j : Nat) (h : Heap) (res : Slice), m ≤ res.arr → m ≤ h.next →
      m ≤ (combineHLoop otherArr fuel j h res).2.arr := by
  intro fuel
  induction fuel with
  | zero => intro j h res hres _; exact hres
  | succ fuel ih =>
    intro j h res hres hnext
    rw [combineHLoop]
    refine ih _ _ _ ?_ (Nat.le_trans hnext (addH_next_le _ _ _))
    rcases addH_arr_cases h res ((h.mem otherArr).getD j ∅) with hc | hc
    · rw [hc]; exact hres
    · rw [hc]; exact hnext

theorem take_append_cons_self (l rest : List ColSet) (k : ColSet) :
    (l ++ k :: rest).take (l.length + 1) = l ++ [k] := by
  rw [List.take_append_eq_append_take, List.take_of_length_le (Nat.le_succ _)]
  simp

theorem set_append_self (l rest : List ColSet) (k : ColSet) (n : Nat)
    (hn : n = l.length) : (l ++ rest).set n k = l ++ rest.set 0 k := by
  subst hn
  rw [List.set_append_right _ _ (Nat.le_refl _)]
  simp

/-- Simulation of the heap-level `Add` scan by the pure scan `addGo`.  During
the loop, the array holds the compacted survivors followed by the original
array contents from the compaction cursor `insert` on, and the pure scan still
has to process positions `i` to `n - 1` of the original `n`-element view.  On
the early return the observable prefix of the array equals the pure result; on
a completed scan the array holds the final survivors (of length the final
`insert`) still followed by the original tail, and the pure result is those
survivors with the new key appended. -/
theorem addHLoop_sim (new : ColSet) (arrId n : Nat) (origArr : List ColSet)
    (hn : n ≤ origArr.length) :
    ∀ (fuel i insert : Nat) (h : Heap) (survivors : List ColSet),
      i + fuel = n → insert = survivors.length → insert ≤ i →
      h.mem arrId = survivors ++ origArr.drop insert →
      (((addHLoop new arrId fuel i insert h).2.2 = false →
          ((addHLoop new arrId fuel i insert h).1.mem arrId).take n =
            addGo new (origArr.take n) ((origArr.take n).drop i) survivors) ∧
        ((addHLoop new arrId fuel i insert h).2.2 = true →
          (addHLoop new arrId fuel i insert h).2.1 ≤ n ∧
          ∃ survivors' : List ColSet,
            survivors'.length = (addHLoop new arrId fuel i insert h).2.1 ∧
            (addHLoop new arrId fuel i insert h).1.mem arrId =
              survivors' ++
                origArr.drop (addHLoop new arrId fuel i insert h).2.1 ∧
            addGo new (origArr.take n) ((origArr.take n).drop i) survivors =
              survivors' ++ [new])) := by
  intro fuel
  induction fuel with
  | zero =>
    intro i insert h survivors hif hins hile hmem
    constructor
    · intro hcontra
      simp [addHLoop] at hcontra
    · intro _
      simp only [addHLoop]
      refine ⟨by omega, survivors, hins.symm, hmem, ?_⟩
      have hpend0 : (origArr.take n).drop i = [] := by
        apply List.drop_eq_nil_of_le
        simp only [List.length_take]
        omega
      rw [hpend0]
      simp [addGo]
  | succ fuel ih =>
    intro i insert h survivors hif hins hile hmem
    have hilt : i < n := by omega
    have hmemlen : (h.mem arrId).length = origArr.length := by
      rw [hmem]
      simp only [List.length_append, List.length_drop, ← hins]
      omega
    set E := (h.mem arrId).getD i ∅ with hE
    have hEeq : E = origArr.getD i ∅ := by
      rw [hE, hmem]
      rw [List.getD_eq_getElem?_getD, List.getD_eq_getElem?_getD]
      rw [List.getElem?_append_right (by omega : survivors.length ≤ i)]
      rw [List.getElem?_drop]
      congr 2
      omega
    have hpend : (origArr.take n).drop i = E :: (origArr.take n).drop (i + 1) := by
      rw [List.drop_eq_getElem_cons (by simp only [List.length_take]; omega)]
      congr 1
      rw [List.getElem_take, hEeq, List.getD_eq_getElem origArr ∅ (by omega)]
    have hstep : addHLoop new arrId (fuel + 1) i insert h
        = if E ⊆ new then (h, insert, false)
          else if new ⊆ E then addHLoop new arrId fuel (i + 1) insert h
          else if insert = i then addHLoop new arrId fuel (i + 1) (insert + 1) h
          else addHLoop new arrId fuel (i + 1) (insert + 1)
            (hWrite h arrId insert E) := by
      rw [hE]
      rfl
    by_cases hred : E ⊆ new
    · rw [hstep, if_pos hred]
      constructor
      · intro _
        show (h.mem arrId).take n = _
        rw [hpend]
        simp only [addGo]
        rw [if_pos hred, hmem, List.take_append_eq_append_take,
          List.take_of_length_le (by omega : survivors.length ≤ n),
          List.drop_take, ← hins]
      · intro hcontra
        exact absurd hcontra Bool.false_ne_true
    · by_cases hsub : new ⊆ E
      · rw [hstep, if_neg hred, if_pos hsub]
        have haddgo : addGo new (origArr.take n) ((origArr.take n).drop i)
              survivors
            = addGo new (origArr.take n) ((origArr.take n).drop (i + 1))
              survivors := by
          rw [hpend]
          simp only [addGo]
          rw [if_neg hred, if_pos hsub]
        rw [haddgo]
        exact ih (i + 1) insert h survivors (by omega) hins (by omega) hmem
      · have haddgo : addGo new (origArr.take n) ((origArr.take n).drop i)
              survivors
            = addGo new (origArr.take n) ((origArr.take n).drop (i + 1))
              (survivors ++ [E]) := by
          rw [hpend]
          simp only [addGo]
          rw [if_neg hred, if_neg hsub]
        by_cases hieq : insert = i
        · rw [hstep, if_neg hred, if_neg hsub, if_pos hieq]
          have hdropi : origArr.drop insert = E :: origArr.drop (insert + 1) := by
            rw [hieq, List.drop_eq_getElem_cons (by omega : i < origArr.length)]
            congr 1
            rw [hEeq, List.getD_eq_getElem origArr ∅ (by omega)]
          have hmem' : h.mem arrId
              = (survivors ++ [E]) ++ origArr.drop (insert + 1) := by
            rw [hmem, hdropi]
            simp
          rw [haddgo]
          exact ih (i + 1) (insert + 1) h (survivors ++ [E]) (by omega)
            (by simp [← hins]) (by omega) hmem'
        · rw [hstep, if_neg hred, if_neg hsub, if_neg hieq]
          have hw : (hWrite h arrId insert E).mem arrId
              = (h.mem arrId).set insert E := by
            simp [hWrite]
          have hmem' : (hWrite h arrId insert E).mem arrId
              = (survivors ++ [E]) ++ origArr.drop (insert + 1) := by
            rw [hw, hmem,
              List.drop_eq_getElem_cons (by omega : insert < origArr.length),
              set_append_self survivors _ E insert hins, List.set_cons_zero]
            simp
          rw [haddgo]
          exact ih (i + 1) (insert + 1) (hWrite h arrId insert E)
            (survivors ++ [E]) (by omega) (by simp [← hins]) (by omega) hmem'

/-- Bridge between the two levels: for a well-formed slice, one heap-level
`Add` produces exactly the element sequence of the pure `Add` of the slice's
element sequence. -/
theorem readSlice_addH (h : Heap) (s : Slice) (k : ColSet)
    (hlc : s.len ≤ s.cap) (hcl : s.cap ≤ (h.mem s.arr).length) :
    readSlice (addH h s k).1 (addH h s k).2 = Add (readSlice h s) k := by
  have hsim := addHLoop_sim k s.arr s.len (h.mem s.arr)
    (Nat.le_trans hlc hcl) s.len 0 0 h [] (by omega) rfl (Nat.le_refl 0)
    (by simp)
  rcases hres : addHLoop k s.arr s.len 0 0 h with ⟨H1, I1, B1⟩
  rw [hres] at hsim
  dsimp only at hsim
  have haddH : addH h s k
      = if B1 then appendS H1 ⟨s.arr, I1, s.cap⟩ k else (H1, s) := by
    simp only [addH, hres]
  cases B1 with
  | false =>
    have h1 := hsim.1 rfl
    rw [haddH, if_neg Bool.false_ne_true]
    show (H1.mem s.arr).take s.len = _
    rw [h1]
    simp [Add, readSlice]
  | true =>
    obtain ⟨hinsle, survivors', hslen, hsmem, haddgo⟩ := hsim.2 rfl
    rw [haddH, if_pos rfl]
    have hrhs : Add (readSlice h s) k = survivors' ++ [k] := by
      simpa [Add, readSlice] using haddgo
    rw [hrhs]
    unfold appendS
    split
    · next hlt =>
      have hlt' : I1 < s.cap := hlt
      have hIltlen : I1 < (h.mem s.arr).length := by omega
      simp only [readSlice]
      have hw : (hWrite H1 s.arr I1 k).mem s.arr = (H1.mem s.arr).set I1 k := by
        simp [hWrite]
      rw [hw, hsmem, List.drop_eq_getElem_cons hIltlen,
        set_append_self survivors' _ k I1 hslen.symm, List.set_cons_zero,
        ← hslen]
      exact take_append_cons_self _ _ _
    · next _ =>
      simp only [readSlice, hAlloc]
      rw [hsmem]
      rw [show (survivors' ++ (h.mem s.arr).drop I1).take I1 = survivors' from
        by rw [← hslen, List.take_left]]
      rw [← hslen]
      exact take_append_cons_self _ _ _

/-- C8: combining with an empty side is the identity: at the element level
`Combine` with an empty list on either side returns the other operand's
elements unchanged, and at the heap level the empty-side branches of
`combineH` hand back an input slice header with the heap untouched — no copy
is performed. -/
theorem combine_empty_identity (X : List ColSet) :
    Combine [] X = X ∧ Combine X [] = X ∧
      (∀ (h : Heap) (wk other : Slice), wk.len = 0 →
        combineH h wk other = (h, other)) ∧
      (∀ (h : Heap) (wk other : Slice), wk.len ≠ 0 → other.len = 0 →
        combineH h wk other = (h, wk)) := by
  refine ⟨rfl, ?_, ?_, ?_⟩
  · by_cases hx : X.length = 0
    · simp [Combine, hx, List.length_eq_zero.mp hx]
    · simp [Combine, hx]
  · intro h wk other h0
    simp [combineH, h0]
  · intro h wk other h0 h1
    simp [combineH, h0, h1]

theorem combine_empty_identity_witness :
    Combine [] [({1} : ColSet)] = [{1}] ∧ Combine [({1} : ColSet)] [] = [{1}] ∧
      combineH ⟨fun _ => [], 2⟩ ⟨0, 0, 0⟩ ⟨1, 0, 0⟩ =
        (⟨fun _ => [], 2⟩, ⟨1, 0, 0⟩) :=
  ⟨(combine_empty_identity [{1}]).1, (combine_empty_identity [{1}]).2.1,
    (combine_empty_identity [{1}]).2.2.1 _ _ _ rfl⟩

/-- C9: `Copy` allocates a fresh backing array holding the same elements in
the same order, disjoint from the source's array, and a subsequent `Add`
through either the copy or the source leaves the observable elements of the
other one unchanged. -/
theorem copy_independent (h : Heap) (s : Slice) (harr : s.arr < h.next) :
    readSlice (copyH h s).1 (copyH h s).2 = readSlice h s ∧
      readSlice (copyH h s).1 s = readSlice h s ∧
      (copyH h s).2.arr ≠ s.arr ∧
      (∀ k, readSlice (addH (copyH h s).1 (copyH h s).2 k).1 s =
        readSlice (copyH h s).1 s) ∧
      ∀ k, readSlice (addH (copyH h s).1 s k).1 (copyH h s).2 =
        readSlice (copyH h s).1 (copyH h s).2 := by
  have hne : s.arr ≠ h.next := Nat.ne_of_lt harr
  refine ⟨?_, ?_, ?_, ?_, ?_⟩
  · simp [readSlice, copyH, hAlloc, List.take_take]
  · simp [readSlice, copyH, hAlloc, hne]
  · exact fun hcontra => hne hcontra.symm
  · intro k
    have hne' : s.arr ≠ (copyH h s).2.arr := hne
    have hlt' : s.arr < (copyH h s).1.next := Nat.lt_succ_of_lt harr
    simp only [readSlice]
    rw [addH_mem_ne hne' hlt']
  · intro k
    have hne' : (copyH h s).2.arr ≠ s.arr := fun hcontra => hne hcontra.symm
    have hlt' : (copyH h s).2.arr < (copyH h s).1.next := Nat.lt_succ_self _
    simp only [readSlice]
    rw [addH_mem_ne hne' hlt']

theorem copy_independent_witness :
    src9.arr < heap9.next ∧
      readSlice (copyH heap9 src9).1 (copyH heap9 src9).2 =
        readSlice heap9 src9 ∧
      readSlice (addH (copyH heap9 src9).1 (copyH heap9 src9).2 {2}).1 src9 =
        readSlice (copyH heap9 src9).1 src9 :=
  ⟨by decide, (copy_independent heap9 src9 (by decide)).1,
    (copy_independent heap9 src9 (by decide)).2.2.2.1 {2}⟩

/-- C10: when both inputs are non-empty, `Combine` allocates a fresh result
array disjoint from both inputs' arrays, leaves both inputs' observable
elements unchanged, and any sequence of subsequent `Add` calls on the result
leaves both inputs' observable elements unchanged. -/
theorem combine_fresh_independent (h : Heap) (wk other : Slice)
    (hwk : wk.arr < h.next) (hother : other.arr < h.next)
    (hwlen : ¬wk.len = 0) (holen : ¬other.len = 0) :
    (combineH h wk other).2.arr ≠ wk.arr ∧
      (combineH h wk other).2.arr ≠ other.arr ∧
      readSlice (combineH h wk other).1 wk = readSlice h wk ∧
      readSlice (combineH h wk other).1 other = readSlice h other ∧
      ∀ ks : List ColSet,
        readSlice (addList (combineH h wk other).1 (combineH h wk other).2 ks).1
            wk = readSlice (combineH h wk other).1 wk ∧
        readSlice (addList (combineH h wk other).1 (combineH h wk other).2 ks).1
            other = readSlice (combineH h wk other).1 other := by
  have hc : combineH h wk other
      = combineHLoop other.arr other.len 0
          (hAlloc h (readSlice h wk ++ List.replicate other.len ∅)).1
          ⟨(hAlloc h (readSlice h wk ++ List.replicate other.len ∅)).2, wk.len,
            wk.len + other.len⟩ := by
    unfold combineH
    rw [if_neg hwlen, if_neg holen]
  have harr_ge : h.next ≤ (combineH h wk other).2.arr := by
    rw [hc]
    exact combineHLoop_arr_ge _ _ _ _ (Nat.le_refl _) (Nat.le_succ _)
  have hnext_ge : h.next + 1 ≤ (combineH h wk other).1.next := by
    rw [hc]
    exact combineHLoop_next_le other.arr other.len 0
      (hAlloc h (readSlice h wk ++ List.replicate other.len ∅)).1
      ⟨(hAlloc h (readSlice h wk ++ List.replicate other.len ∅)).2, wk.len,
        wk.len + other.len⟩
  have hmemwk : (combineH h wk other).1.mem wk.arr = h.mem wk.arr := by
    rw [hc]
    rw [combineHLoop_mem_ne _ _ _ _ (Nat.ne_of_lt hwk) (Nat.lt_succ_of_lt hwk)]
    exact hAlloc_mem_lt hwk
  have hmemot : (combineH h wk other).1.mem other.arr = h.mem other.arr := by
    rw [hc]
    rw [combineHLoop_mem_ne _ _ _ _ (Nat.ne_of_lt hother)
      (Nat.lt_succ_of_lt hother)]
    exact hAlloc_mem_lt hother
  refine ⟨?_, ?_, ?_, ?_, ?_⟩
  · exact fun hcontra => Nat.lt_irrefl _ (hcontra ▸ Nat.lt_of_lt_of_le hwk harr_ge)
  · exact fun hcontra =>
      Nat.lt_irrefl _ (hcontra ▸ Nat.lt_of_lt_of_le hother harr_ge)
  · simp only [readSlice, hmemwk]
  · simp only [readSlice, hmemot]
  · intro ks
    constructor
    · simp only [readSlice]
      rw [addList_mem_ne ks _ _
        (fun hcontra => Nat.lt_irrefl _
          (hcontra ▸ Nat.lt_of_lt_of_le hwk harr_ge))
        (Nat.lt_of_lt_of_le (Nat.lt_succ_of_lt hwk) hnext_ge)]
    · simp only [readSlice]
      rw [addList_mem_ne ks _ _
        (fun hcontra => Nat.lt_irrefl _
          (hcontra ▸ Nat.lt_of_lt_of_le hother harr_ge))
        (Nat.lt_of_lt_of_le (Nat.lt_succ_of_lt hother) hnext_ge)]

theorem combine_fresh_independent_witness :
    wk10.arr < heap10.next ∧ other10.arr < heap10.next ∧
      (combineH heap10 wk10 other10).2.arr ≠ wk10.arr ∧
      readSlice (combineH heap10 wk10 other10).1 wk10 =
        readSlice heap10 wk10 ∧
      readSlice
          (addList (combineH heap10 wk10 other10).1
            (combineH heap10 wk10 other10).2 [{3}]).1 other10 =
        readSlice (combineH heap10 wk10 other10).1 other10 :=
  ⟨by decide, by decide,
    (combine_fresh_independent heap10 wk10 other10 (by decide) (by decide)
      (by decide) (by decide)).1,
    (combine_fresh_independent heap10 wk10 other10 (by decide) (by decide)
      (by decide) (by decide)).2.2.1,
    ((combine_fresh_independent heap10 wk10 other10 (by decide) (by decide)
      (by decide) (by decide)).2.2.2.2 [{3}]).2⟩

end WeakKeysModel
